import Mathlib

/-!
Verification of the symbol-tools repository: a shallow embedding of the
symbol & relocation resolution engine (`src/link.rs`), the aggregated
symbol map builder and byte-range helper (`src/common.rs`), and the diff
engine (`src/diff.rs`), together with theorems settling the frozen claims.

Machine integers (`u64`, `usize`) are modelled as `Nat`; the source runs on
64-bit hosts where the `u64 → usize` casts in `data_range` never fail, so
they are modelled as the identity.  Byte buffers are `List Nat`.
-/

set_option maxHeartbeats 1000000

namespace SymTools

/-! ## Rust slice binary search

`binarySearchByGo` embeds the loop of Rust's `slice::binary_search_by`
(used via `binary_search_by_key` in `Explorer::index` and, through
`partition_point`, in `Explorer::reloc`): on `Ordering.lt` continue in the
right half, on `Ordering.gt` in the left half, on `Ordering.eq` return the
index.  The loop strictly shrinks `right - left`, so fuel `length + 1`
always suffices. -/

def binarySearchByGo {α : Type} (f : α → Ordering) (xs : List α)
    (left right fuel : Nat) : Except Nat Nat :=
  match fuel with
  | 0 => .error left
  | fuel' + 1 =>
    if left < right then
      let mid := left + (right - left) / 2
      match xs[mid]? with
      | none => .error left
      | some v =>
        match f v with
        | .lt => binarySearchByGo f xs (mid + 1) right fuel'
        | .gt => binarySearchByGo f xs left mid fuel'
        | .eq => .ok mid
    else
      .error left

def binarySearchBy {α : Type} (f : α → Ordering) (xs : List α) : Except Nat Nat :=
  binarySearchByGo f xs 0 xs.length (xs.length + 1)

/-- Rust `slice::binary_search_by_key`, as called in `Explorer::index`
(`symmap.symbols().binary_search_by_key(&sym.address(), |sym| sym.address())`). -/
def binarySearchByKey {α : Type} (key : Nat) (keyf : α → Nat) (xs : List α) : Except Nat Nat :=
  binarySearchBy (fun v => compare (keyf v) key) xs

/-- Rust `slice::partition_point` (used in `Explorer::reloc`): a binary
search with a predicate mapped to `lt`/`gt`, whose insertion point is the
first index whose element fails the predicate. -/
def partitionPoint {α : Type} (pred : α → Bool) (xs : List α) : Nat :=
  match binarySearchBy (fun v => if pred v then Ordering.lt else Ordering.gt) xs with
  | .ok i => i
  | .error i => i

/-! ## `common.rs`: `data_range`

Embeds `data_range(data, data_address, range_address, size)`:
`checked_sub` failure is the "bad address" error; `data.get(offset..)`
is `none` when `offset > data.len()`; `.get(..size)` is `none` when
`size` exceeds the remaining length; either produces the
"section range overflow" error. -/

def data_range (data : List Nat) (dataAddress rangeAddress size : Nat) :
    Except String (List Nat) :=
  if rangeAddress < dataAddress then .error "bad address"
  else
    let offset := rangeAddress - dataAddress
    if offset ≤ data.length then
      let rest := data.drop offset
      if size ≤ rest.length then .ok (rest.take size)
      else .error "section range overflow"
    else .error "section range overflow"

/-! ## `Explorer::index`: Mach-O size inference

The Mach-O branch of `Explorer::index` (link.rs): the per-object symbol
map is a list of symbol addresses sorted ascending; binary-search for this
symbol's address; if the table has a following entry its address minus
this one is the size, otherwise the size is
`section.address() + section.size() - sym.address()`.
A failed binary search is the "not found symbol address" error (`none`). -/

def machoInferSize (symmapAddrs : List Nat) (secAddr secSize symAddr : Nat) : Option Nat :=
  match binarySearchByKey symAddr (fun a => a) symmapAddrs with
  | .error _ => none
  | .ok idx =>
    match symmapAddrs[idx + 1]? with
    | some nextAddr => some (nextAddr - symAddr)
    | none => some (secAddr + secSize - symAddr)

/-- Modelled from the spec: the size inference as the specification words
it — `next_symbol_address - this_address`, except that "if this is the
last symbol in its section" the size is
`section_end_address - this_address` instead.  "Last in its section"
reads: no table address is strictly greater than this one and inside
`[secAddr, secAddr + secSize)`.  The next symbol address is the least
table address strictly greater than this one.  Written only for
comparison against `machoInferSize`, which embeds the code. -/
def specClaimedMachoSize (symmapAddrs : List Nat) (secAddr secSize symAddr : Nat) : Option Nat :=
  if symAddr ∈ symmapAddrs then
    if symmapAddrs.any (fun x => decide (symAddr < x ∧ secAddr ≤ x ∧ x < secAddr + secSize)) then
      match (symmapAddrs.filter (fun x => decide (symAddr < x))).min? with
      | some next => some (next - symAddr)
      | none => none
    else
      some (secAddr + secSize - symAddr)
  else none

/-! ## `Explorer::reloc` and `Cache::init_reloc`: the relocation index -/

/-- Relocation target of `object::read::Relocation`: the supported kinds
in link.rs are symbol and section targets; anything else hits the
`_ => bail!("not support target")` arm. -/
inductive RTarget where
  | symbol (idx : Nat)
  | sectionRef (idx : Nat)
  | other (raw : Nat)
  deriving DecidableEq

/-- The per-entry payload of a section's relocation list: target and
signed addend (the fields of `object::read::Relocation` that
`Explorer::reloc` reads). -/
structure RelocEntry where
  target : RTarget
  addend : Int
  deriving DecidableEq

/-- The `Relocation` struct of link.rs. -/
structure Relocation where
  offset : Nat
  target : RTarget
  addend : Int
  deriving DecidableEq

/-- Stable insertion of one `(offset, reloc)` pair into an offset-sorted list. -/
def insertByOffset (p : Nat × RelocEntry) : List (Nat × RelocEntry) → List (Nat × RelocEntry)
  | [] => [p]
  | q :: rest => if p.1 ≤ q.1 then p :: q :: rest else q :: insertByOffset p rest

/-- `Cache::init_reloc`: collect the section's `(offset, relocation)`
pairs and sort them ascending by offset (`list.sort_by_key(|(offset, _)| *offset)`). -/
def init_reloc : List (Nat × RelocEntry) → List (Nat × RelocEntry)
  | [] => []
  | p :: rest => insertByOffset p (init_reloc rest)

/-- The push loop of `Explorer::reloc`: convert each sliced pair to a
`Relocation`, failing on an unsupported target kind. -/
def convertRelocs : List (Nat × RelocEntry) → Except String (List Relocation)
  | [] => .ok []
  | (off, r) :: rest =>
    match r.target with
    | .symbol i => (convertRelocs rest).map (fun l => ⟨off, .symbol i, r.addend⟩ :: l)
    | .sectionRef i => (convertRelocs rest).map (fun l => ⟨off, .sectionRef i, r.addend⟩ :: l)
    | .other _ => .error "not support target"

/-- The supported-pair image of a sorted-table entry, for stating what the
conversion loop produces. -/
def toRelocation (p : Nat × RelocEntry) : Relocation :=
  ⟨p.1, p.2.target, p.2.addend⟩

/-- Whether a relocation target avoids the `_ => bail!` arm of
`Explorer::reloc`. -/
def isSupported : RTarget → Bool
  | .other _ => false
  | _ => true

/-- `Explorer::reloc` on one section: build the sorted table
(`init_reloc`), compute the symbol's section-relative address, find the
slice bounds by two `partition_point` searches, slice
(`relocs.get(start..end).unwrap_or_default()` is empty when the range is
invalid), and convert. -/
def relocQuery (sectionRelocs : List (Nat × RelocEntry)) (secAddr symAddr symSize : Nat) :
    Except String (List Relocation) :=
  let relocs := init_reloc sectionRelocs
  let address := symAddr - secAddr
  let start := partitionPoint (fun p => decide (p.1 < address)) relocs
  let stop := partitionPoint (fun p => decide (p.1 < address + symSize)) relocs
  let slice :=
    if start ≤ stop ∧ stop ≤ relocs.length then (relocs.take stop).drop start else []
  convertRelocs slice

/-- The linear-scan reference: the relocations of the section whose offset
lies in the half-open range `[lo, hi)`, in encounter order. -/
def linearScanRelocs (sectionRelocs : List (Nat × RelocEntry)) (lo hi : Nat) :
    List (Nat × RelocEntry) :=
  sectionRelocs.filter (fun p => decide (lo ≤ p.1 ∧ p.1 < hi))

/-! ## `Explorer::dump`: the section data cache

A section is modelled by its base address, whether
`section.uncompressed_data()` returns an owned buffer (`compressed`), and
its uncompressed bytes.  Decompression is deterministic, so the owned
buffer equals `bytes`.  The cache is the `decompress_sections` map keyed
by `(object-index, section-index)`; the `Nat` in `dump`'s result counts
decompressions performed by that call. -/

structure SectionInfo where
  addr : Nat
  compressed : Bool
  bytes : List Nat

abbrev SectionEnv := Nat × Nat → Option SectionInfo

structure Symbol where
  objIdx : Nat
  sectionIdx : Nat
  address : Nat
  size : Nat
  deriving DecidableEq

def assocLookup {κ ν : Type} [DecidableEq κ] (m : List (κ × ν)) (k : κ) : Option ν :=
  match m with
  | [] => none
  | (k', v) :: rest => if k' = k then some v else assocLookup rest k

abbrev DecompCache := List ((Nat × Nat) × (Nat × List Nat))

/-- `Explorer::dump`: on a cache hit slice the cached buffer; on a miss,
if the section decompresses to an owned buffer, insert it into the cache
(one decompression) and slice it; otherwise slice the borrowed section
bytes without caching. -/
def dump (env : SectionEnv) (cache : DecompCache) (sym : Symbol) :
    Except String (List Nat) × DecompCache × Nat :=
  let key := (sym.objIdx, sym.sectionIdx)
  match assocLookup cache key with
  | some sd => (data_range sd.2 sd.1 sym.address sym.size, cache, 0)
  | none =>
    match env key with
    | none => (.error "bad section index", cache, 0)
    | some sec =>
      if sec.compressed then
        (data_range sec.bytes sec.addr sym.address sym.size,
          (key, (sec.addr, sec.bytes)) :: cache, 1)
      else
        (data_range sec.bytes sec.addr sym.address sym.size, cache, 0)

/-- The byte result of a `dump` call, independent of cache state. -/
def dumpPure (env : SectionEnv) (sym : Symbol) : Except String (List Nat) :=
  (dump env [] sym).1

/-- A session: a sequence of `dump` commands threaded through the cache.
Returns the per-call results, the final cache, and the list of
`(object, section)` keys in decompression-event order. -/
def dumpSeq (env : SectionEnv) (cache : DecompCache) :
    List Symbol → List (Except String (List Nat)) × DecompCache × List (Nat × Nat)
  | [] => ([], cache, [])
  | s :: rest =>
    let step := dump env cache s
    let tail := dumpSeq env step.2.1 rest
    (step.1 :: tail.1, tail.2.1,
      (if step.2.2 = 0 then [] else [(s.objIdx, s.sectionIdx)]) ++ tail.2.2)

/-- Cache well-formedness: every cached entry stores the true base
address and decompressed bytes of the section it is keyed by (immediate
from construction, since decompression is deterministic). -/
def cacheConsistent (env : SectionEnv) (cache : DecompCache) : Prop :=
  ∀ k sd, assocLookup cache k = some sd →
    ∃ sec, env k = some sec ∧ sd = (sec.addr, sec.bytes)

/-! ## `common.rs`: `collect_map`, the aggregated symbol map builder -/

inductive SymKind where
  | text
  | data
  | unknownKind
  deriving DecidableEq

/-- The fields of an `object::read::Symbol` that `collect_map` touches,
plus `defined` (`!is_undefined()`), which the symbol tables fed to the
builder guarantee. `name = none` models a `name()` read error. -/
structure SymEntry where
  kind : SymKind
  name : Option String
  defined : Bool
  address : Nat
  size : Nat
  deriving DecidableEq

/-- The key under which `collect_map` files a symbol, if any: text kind,
readable non-empty mangled name, demangled (`dem`), and — in
`filter_outlined` mode — coalesced into the `OUTLINED_FUNCTION_` bucket
when the demangled name starts with that prefix . -/
def symKeyName (dem : String → String) (filterOutlined : Bool) (s : SymEntry) : Option String :=
  if s.kind = SymKind.text then
    match s.name with
    | some n =>
      if n = "" then none
      else
        let d := dem n
        if filterOutlined && d.startsWith "OUTLINED_FUNCTION_" then some "OUTLINED_FUNCTION_"
        else some d
    | none => none
  else none

/-- One loop iteration of `collect_map`: on an existing key add the size
(`entry.and_modify(|entry| entry.1 += size)`), otherwise insert
`(addr, size)` (`or_insert_with(|| (addr, size))`); symbols that produce
no key are skipped. -/
def collectStep (dem : String → String) (filterOutlined : Bool)
    (m : String → Option (Nat × Nat)) (s : SymEntry) : String → Option (Nat × Nat) :=
  match symKeyName dem filterOutlined s with
  | some key => fun k =>
    if k = key then
      match m key with
      | some av => some (av.1, av.2 + s.size)
      | none => some (s.address, s.size)
    else m k
  | none => m

/-- `collect_map`: fold the symbols in encounter order into a
name → (address, size) map.  The hash map is modelled by its lookup
function. -/
def collect_map (dem : String → String) (filterOutlined : Bool) (syms : List SymEntry) :
    String → Option (Nat × Nat) :=
  syms.foldl (collectStep dem filterOutlined) (fun _ => none)

/-- The input symbols that land under key `k`, in encounter order. -/
def keyHits (dem : String → String) (filterOutlined : Bool) (syms : List SymEntry)
    (k : String) : List SymEntry :=
  syms.filter (fun s => decide (symKeyName dem filterOutlined s = some k))

def sumSizes (l : List SymEntry) : Nat := (l.map (fun s => s.size)).sum

/-- The value `collect_map` leaves under one key, as a function of the
previous value and the symbols that hit the key: address of the first
hit (first-seen), sum of all hit sizes. -/
def foldedEntry (prev : Option (Nat × Nat)) (hits : List SymEntry) : Option (Nat × Nat) :=
  match hits, prev with
  | [], mk => mk
  | h :: t, none => some (h.address, sumSizes (h :: t))
  | h :: t, some av => some (av.1, av.2 + sumSizes (h :: t))

/-! ## `diff.rs`: `Differ::for_each` -/

/-- The `size as i64` cast. -/
def asI64 (n : Nat) : Int := ((n + 2 ^ 63) % 2 ^ 64 : Nat) - 2 ^ 63

abbrev AggMap := List (String × Nat × Nat)

structure DiffRec where
  name : String
  oldAddr : Nat
  oldSize : Int
  newAddr : Nat
  newSize : Int
  deriving DecidableEq

/-- `Differ::for_each` as the list of records passed to the callback:
for every entry of `old`, a both-sides record when the name is in `new`
with a different size, a new-side-zeroed record when the name is absent
from `new`; then, in two-way mode, an old-side-zeroed record for every
entry of `new` whose name is not in `old`. -/
def differForEach (oldMap newMap : AggMap) (twoway : Bool) : List DiffRec :=
  (oldMap.filterMap (fun e =>
    match assocLookup newMap e.1 with
    | some nv =>
      if e.2.2 ≠ nv.2 then some ⟨e.1, e.2.1, asI64 e.2.2, nv.1, asI64 nv.2⟩ else none
    | none => some ⟨e.1, e.2.1, asI64 e.2.2, 0, 0⟩))
  ++ (if twoway then
        newMap.filterMap (fun e =>
          match assocLookup oldMap e.1 with
          | some _ => none
          | none => some ⟨e.1, 0, 0, e.2.1, asI64 e.2.2⟩)
      else [])

/-- The `change_count` total: the sum of `new_size - old_size` over the
emitted records. -/
def differTotal (oldMap newMap : AggMap) (twoway : Bool) : Int :=
  ((differForEach oldMap newMap twoway).map (fun r => r.newSize - r.oldSize)).sum

/-! ## `Explorer::build`: the consistency validation -/

inductive ArchTag where
  | aarch64
  | x86_64
  | otherArch (raw : Nat)
  deriving DecidableEq

inductive FormatTag where
  | elf
  | machO
  | pe
  | otherFormat (raw : Nat)
  deriving DecidableEq

structure ObjectFile where
  name : String
  arch : ArchTag
  format : FormatTag
  deriving DecidableEq

/-- The errors of `Explorer::build` up to the disassembler choice; each
`inconsistent*` constructor carries exactly what its format string
interpolates: the first object's value, the mismatching object's value,
and the mismatching object's name. -/
inductive BuildErr where
  | notFoundObject
  | inconsistentArch (expected found : ArchTag) (objName : String)
  | inconsistentFormat (expected found : FormatTag) (objName : String)
  | unsupportedArch (arch : ArchTag)
  deriving DecidableEq

/-- `Explorer::build` through its validation phase: empty input fails;
the first object fixes architecture and format; `find` locates the first
object disagreeing on architecture, then on format; then the
disassembler factory exists only for AArch64 and x86-64.  (The
symbol-map construction that follows is not needed by any claim.) -/
def buildCheck (list : List ObjectFile) : Except BuildErr (ArchTag × FormatTag) :=
  match list with
  | [] => .error .notFoundObject
  | first :: _ =>
    match list.find? (fun o => decide (o.arch ≠ first.arch)) with
    | some o => .error (.inconsistentArch first.arch o.arch o.name)
    | none =>
      match list.find? (fun o => decide (o.format ≠ first.format)) with
      | some o => .error (.inconsistentFormat first.format o.format o.name)
      | none =>
        match first.arch with
        | .aarch64 => .ok (first.arch, first.format)
        | .x86_64 => .ok (first.arch, first.format)
        | a => .error (.unsupportedArch a)

/-- The object names interpolated into a build error's message. -/
def namesReported : BuildErr → List String
  | .inconsistentArch _ _ n => [n]
  | .inconsistentFormat _ _ n => [n]
  | _ => []

/-! ## `select`: occurrence disambiguation for `dump` / `reloc` -/

structure SymbolPosition where
  objIdx : Nat
  symIdx : Nat
  deriving DecidableEq

/-- `select(explorer, syms, iter.next())`: the `assert!(!syms.is_empty())`
panic is modelled as an error; a singleton list is taken as-is (the
current-object filter is consulted only when `syms.len() != 1`); if the
(possibly filtered) list is a singleton return its element, else parse
the explicit index argument or return `none` (ambiguous). -/
def select (currentObjIdx : Option Nat) (syms : List SymbolPosition) (arg : Option String) :
    Except String (Option SymbolPosition) :=
  if syms.isEmpty then .error "assertion failed: empty symbol list"
  else
    let syms2 :=
      if syms.length = 1 then syms
      else
        match currentObjIdx with
        | some objIdx => syms.filter (fun s => decide (s.objIdx = objIdx))
        | none => syms
    if syms2.length = 1 then .ok syms2[0]?
    else
      match arg with
      | some idxStr =>
        match idxStr.toNat? with
        | some idx =>
          match syms2[idx]? with
          | some pos => .ok (some pos)
          | none => .error "index too large"
        | none => .error "need index number"
      | none => .ok none

/-! ## Helper lemmas -/

theorem assocLookup_eq_none_iff {κ ν : Type} [DecidableEq κ] (m : List (κ × ν)) (k : κ) :
    assocLookup m k = none ↔ k ∉ m.map Prod.fst := by
  induction m with
  | nil => simp [assocLookup]
  | cons e rest ih =>
    obtain ⟨k', v⟩ := e
    by_cases hk : k' = k
    · subst hk
      simp [assocLookup]
    · simp only [assocLookup, if_neg hk, List.map_cons, List.mem_cons, ih]
      constructor
      · rintro h (h' | h')
        · exact hk h'.symm
        · exact h h'
      · intro h h'
        exact h (Or.inr h')

theorem assocLookup_eq_some_iff {κ ν : Type} [DecidableEq κ] (m : List (κ × ν))
    (hm : (m.map Prod.fst).Nodup) (k : κ) (v : ν) :
    assocLookup m k = some v ↔ (k, v) ∈ m := by
  induction m with
  | nil => simp [assocLookup]
  | cons e rest ih =>
    obtain ⟨k', v'⟩ := e
    simp only [List.map_cons, List.nodup_cons] at hm
    show (if k' = k then some v' else assocLookup rest k) = some v ↔ _
    by_cases hk : k' = k
    · subst hk
      rw [if_pos rfl]
      simp only [List.mem_cons, Option.some.injEq, Prod.mk.injEq]
      constructor
      · rintro rfl
        exact Or.inl ⟨trivial, rfl⟩
      · rintro (⟨-, rfl⟩ | hmem)
        · rfl
        · exact absurd (List.mem_map_of_mem Prod.fst hmem) hm.1
    · rw [if_neg hk]
      simp only [List.mem_cons, Prod.mk.injEq, ih hm.2]
      constructor
      · exact fun h => Or.inr h
      · rintro (⟨rfl, -⟩ | h)
        · exact absurd rfl hk
        · exact h

/-! ## Claim C9: a unique occurrence bypasses the current-object filter -/

/-- C9: when a symbol name has exactly one occurrence, `select` resolves
it directly, whatever the session's current-object filter says — even if
the occurrence lies in a different object than the filter names, and
whatever explicit index argument is supplied. -/
theorem select_unique_ignores_filter (currentObjIdx : Option Nat) (pos : SymbolPosition)
    (arg : Option String) :
    select currentObjIdx [pos] arg = .ok (some pos) := rfl

/-! ## Claim C7: bounds-checked byte-range extraction -/

/-- C7: `data_range` succeeds exactly when the symbol address is not
below the section base and the size does not exceed the bytes remaining
after the offset (over the integers: `size ≤ length - offset`, which for
naturals is `offset + size ≤ length`), in which case it returns exactly
the slice `section_bytes[(symbol_address - section_address)..+size]`;
in every other case it returns an explicit error (it never truncates,
and it is a total function, so it never panics). -/
theorem data_range_checked (data : List Nat) (dataAddress rangeAddress size : Nat) :
    (∀ l, data_range data dataAddress rangeAddress size = .ok l ↔
      (dataAddress ≤ rangeAddress ∧
        (rangeAddress - dataAddress) + size ≤ data.length ∧
        l = (data.drop (rangeAddress - dataAddress)).take size)) ∧
    ((∃ msg, data_range data dataAddress rangeAddress size = .error msg) ↔
      ¬(dataAddress ≤ rangeAddress ∧ (rangeAddress - dataAddress) + size ≤ data.length)) := by
  simp only [data_range]
  split_ifs with h1 h2 h3
  · constructor
    · intro l
      simp only [reduceCtorEq, false_iff]
      omega
    · simp only [Except.error.injEq, exists_eq', true_iff]
      omega
  · constructor
    · intro l
      simp only [Except.ok.injEq]
      constructor
      · rintro rfl
        refine ⟨by omega, ?_, rfl⟩
        simp only [List.length_drop] at h3
        omega
      · rintro ⟨-, -, rfl⟩
        rfl
    · simp only [reduceCtorEq, exists_false, false_iff, not_not]
      simp only [List.length_drop] at h3
      omega
  · constructor
    · intro l
      simp only [reduceCtorEq, false_iff]
      simp only [List.length_drop, not_le] at h3
      omega
    · simp only [Except.error.injEq, exists_eq', true_iff]
      simp only [List.length_drop, not_le] at h3
      omega
  · constructor
    · intro l
      simp only [reduceCtorEq, false_iff]
      omega
    · simp only [Except.error.injEq, exists_eq', true_iff]
      omega

/-! ## Claim C8: mixed architecture/format detection -/

/-- C8 counterexample: two loaded objects with different architectures do
fail, but the error carries (and its message interpolates) only the
mismatching object's name `"b.o"` — the first object's name `"a.o"` is
not reported, so the claim that both conflicting object names are
reported is false at this input. -/
theorem buildCheck_reports_single_name :
    buildCheck [⟨"a.o", .aarch64, .elf⟩, ⟨"b.o", .x86_64, .elf⟩] =
      .error (.inconsistentArch .aarch64 .x86_64 "b.o") ∧
    "b.o" ∈ namesReported (.inconsistentArch .aarch64 .x86_64 "b.o") ∧
    "a.o" ∉ namesReported (BuildErr.inconsistentArch .aarch64 .x86_64 "b.o") := by
  refine ⟨rfl, ?_, ?_⟩ <;> decide

/-- C8 amended: when some loaded object disagrees with the first on
architecture or binary format, `Explorer::build` fails with an
inconsistency error carrying the two conflicting tag values and the name
of a mismatching object (but not the first object's name). -/
theorem buildCheck_mismatch_fails (first : ObjectFile) (rest : List ObjectFile)
    (h : ∃ o ∈ first :: rest, o.arch ≠ first.arch ∨ o.format ≠ first.format) :
    ∃ e, buildCheck (first :: rest) = .error e ∧
      ((∃ o ∈ first :: rest, o.arch ≠ first.arch ∧
          e = .inconsistentArch first.arch o.arch o.name) ∨
       (∃ o ∈ first :: rest, o.format ≠ first.format ∧
          e = .inconsistentFormat first.format o.format o.name)) := by
  cases hfa : (first :: rest).find? (fun o => decide (o.arch ≠ first.arch)) with
  | some o =>
    refine ⟨.inconsistentArch first.arch o.arch o.name, ?_, ?_⟩
    · simp only [buildCheck, hfa]
    · exact Or.inl ⟨o, List.mem_of_find?_eq_some hfa, by simpa using List.find?_some hfa, rfl⟩
  | none =>
    have hall : ∀ o ∈ first :: rest, o.arch = first.arch := by
      intro o ho
      have := List.find?_eq_none.mp hfa o ho
      simpa using this
    obtain ⟨o, ho, hor⟩ := h
    have hof : o.format ≠ first.format := by
      rcases hor with hA | hF
      · exact absurd (hall o ho) hA
      · exact hF
    cases hff : (first :: rest).find? (fun o => decide (o.format ≠ first.format)) with
    | some o' =>
      refine ⟨.inconsistentFormat first.format o'.format o'.name, ?_, ?_⟩
      · simp only [buildCheck, hfa, hff]
      · exact Or.inr ⟨o', List.mem_of_find?_eq_some hff, by simpa using List.find?_some hff, rfl⟩
    | none =>
      have := List.find?_eq_none.mp hff o ho
      simp only [decide_not, Bool.not_eq_true', decide_eq_false_iff_not, Decidable.not_not] at this
      exact absurd this hof

/-- C8 amended, witness: a concrete two-object set mixing ELF and Mach-O
formats fails with a format-inconsistency error naming `"c.o"`. -/
theorem buildCheck_mismatch_fails_witness :
    ∃ e, buildCheck [⟨"a.o", .aarch64, .elf⟩, ⟨"c.o", .aarch64, .machO⟩] = .error e ∧
      ((∃ o ∈ [(⟨"a.o", .aarch64, .elf⟩ : ObjectFile), ⟨"c.o", .aarch64, .machO⟩],
          o.arch ≠ ArchTag.aarch64 ∧ e = .inconsistentArch ArchTag.aarch64 o.arch o.name) ∨
       (∃ o ∈ [(⟨"a.o", .aarch64, .elf⟩ : ObjectFile), ⟨"c.o", .aarch64, .machO⟩],
          o.format ≠ FormatTag.elf ∧ e = .inconsistentFormat FormatTag.elf o.format o.name)) :=
  buildCheck_mismatch_fails ⟨"a.o", .aarch64, .elf⟩ [⟨"c.o", .aarch64, .machO⟩]
    ⟨⟨"c.o", .aarch64, .machO⟩, by decide, by decide⟩

/-! ## The aggregated map builder: `collect_map` characterization -/

theorem symKeyName_some (dem : String → String) (fo : Bool) (s : SymEntry) (k : String)
    (h : symKeyName dem fo s = some k) :
    s.kind = SymKind.text ∧ ∃ n, s.name = some n ∧ n ≠ "" := by
  unfold symKeyName at h
  by_cases hkind : s.kind = SymKind.text
  · rw [if_pos hkind] at h
    match hn : s.name with
    | none => rw [hn] at h; simp at h
    | some n =>
      rw [hn] at h
      dsimp only at h
      by_cases hempty : n = ""
      · rw [if_pos hempty] at h
        simp at h
      · exact ⟨hkind, n, rfl, hempty⟩
  · rw [if_neg hkind] at h
    simp at h

theorem collectStep_foldl (dem : String → String) (fo : Bool) (syms : List SymEntry)
    (m : String → Option (Nat × Nat)) (k : String) :
    (syms.foldl (collectStep dem fo) m) k = foldedEntry (m k) (keyHits dem fo syms k) := by
  induction syms generalizing m with
  | nil => rfl
  | cons s rest ih =>
    simp only [List.foldl_cons]
    rw [ih]
    match hst : symKeyName dem fo s with
    | none =>
      have hs1 : collectStep dem fo m s = m := by
        unfold collectStep
        rw [hst]
      have hs2 : keyHits dem fo (s :: rest) k = keyHits dem fo rest k := by
        simp [keyHits, List.filter_cons, hst]
      rw [hs1, hs2]
    | some key =>
      by_cases hkey : key = k
      · subst hkey
        have hs1 : collectStep dem fo m s key =
            match m key with
            | some av => some (av.1, av.2 + s.size)
            | none => some (s.address, s.size) := by
          unfold collectStep
          rw [hst]
          simp
        have hs2 : keyHits dem fo (s :: rest) key = s :: keyHits dem fo rest key := by
          simp [keyHits, List.filter_cons, hst]
        rw [hs1, hs2]
        match hm : m key, hh : keyHits dem fo rest key with
        | none, [] => simp [foldedEntry, sumSizes]
        | none, h0 :: t => simp [foldedEntry, sumSizes]
        | some av, [] => simp [foldedEntry, sumSizes]
        | some av, h0 :: t => simp [foldedEntry, sumSizes, Nat.add_assoc]
      · have hs1 : collectStep dem fo m s k = m k := by
          unfold collectStep
          rw [hst]
          exact if_neg (fun hc => hkey hc.symm)
        have hs2 : keyHits dem fo (s :: rest) k = keyHits dem fo rest k := by
          simp [keyHits, List.filter_cons, hst, hkey]
        rw [hs1, hs2]

theorem collect_map_eq (dem : String → String) (fo : Bool) (syms : List SymEntry) (k : String) :
    collect_map dem fo syms k = foldedEntry none (keyHits dem fo syms k) :=
  collectStep_foldl dem fo syms (fun _ => none) k

/-! ## Claim C4: what the aggregated map builder inserts -/

/-- C4: for inputs consisting of defined symbols (which the symbol
tables fed to `collect_map` guarantee), every entry of the aggregated
map is backed by a non-empty list of defined text symbols with readable
non-empty names, all keyed (by demangled name, or the outlined bucket)
to that entry; the stored address is the first-seen hit's address and
the stored size is the sum of all hits' sizes. -/
theorem collect_map_characterization (dem : String → String) (fo : Bool)
    (syms : List SymEntry) (hdef : ∀ s ∈ syms, s.defined = true)
    (k : String) (a sz : Nat)
    (h : collect_map dem fo syms k = some (a, sz)) :
    ∃ h0 t, keyHits dem fo syms k = h0 :: t ∧
      a = h0.address ∧ sz = sumSizes (h0 :: t) ∧
      ∀ s ∈ h0 :: t, s ∈ syms ∧ s.defined = true ∧ s.kind = SymKind.text ∧
        (∃ n, s.name = some n ∧ n ≠ "") ∧ symKeyName dem fo s = some k := by
  rw [collect_map_eq] at h
  match hh : keyHits dem fo syms k with
  | [] =>
    rw [hh] at h
    exact absurd h (by simp [foldedEntry])
  | h0 :: t =>
    rw [hh] at h
    simp only [foldedEntry, Option.some.injEq, Prod.mk.injEq] at h
    refine ⟨h0, t, rfl, h.1.symm, h.2.symm, ?_⟩
    intro s hs
    rw [← hh] at hs
    have hmem : s ∈ syms := List.mem_of_mem_filter hs
    have hfilt : symKeyName dem fo s = some k := by
      have := List.of_mem_filter hs
      simpa using this
    obtain ⟨hkind, n, hn, hne⟩ := symKeyName_some dem fo s k hfilt
    exact ⟨hmem, hdef s hmem, hkind, ⟨n, hn, hne⟩, hfilt⟩

/-- C4 witness: a single defined text symbol named `"f"` at address 5
with size 7 yields the entry `("f", (5, 7))`. -/
theorem collect_map_characterization_witness :
    ∃ h0 t, keyHits (fun n => n) false [⟨SymKind.text, some "f", true, 5, 7⟩] "f" = h0 :: t ∧
      5 = h0.address ∧ 7 = sumSizes (h0 :: t) ∧
      ∀ s ∈ h0 :: t, s ∈ [(⟨SymKind.text, some "f", true, 5, 7⟩ : SymEntry)] ∧
        s.defined = true ∧ s.kind = SymKind.text ∧
        (∃ n, s.name = some n ∧ n ≠ "") ∧ symKeyName (fun n => n) false s = some "f" :=
  collect_map_characterization (fun n => n) false [⟨SymKind.text, some "f", true, 5, 7⟩]
    (by decide) "f" 5 7 (by decide)

/-! ## Claim C6: order-(in)dependence of aggregation -/

/-- C6 counterexample: two text symbols share the name `"f"` but have
different addresses 1 and 2; aggregating them in the two encounter
orders (which are permutations of each other) stores different
addresses, `(1, 2)` versus `(2, 2)` — so the final aggregated map is not
permutation-invariant as claimed. -/
theorem collect_map_order_dependent :
    ([⟨SymKind.text, some "f", true, 1, 1⟩, ⟨SymKind.text, some "f", true, 2, 1⟩] :
        List SymEntry).Perm
      [⟨SymKind.text, some "f", true, 2, 1⟩, ⟨SymKind.text, some "f", true, 1, 1⟩] ∧
    collect_map (fun n => n) false
        [⟨SymKind.text, some "f", true, 1, 1⟩, ⟨SymKind.text, some "f", true, 2, 1⟩] "f" =
      some (1, 2) ∧
    collect_map (fun n => n) false
        [⟨SymKind.text, some "f", true, 2, 1⟩, ⟨SymKind.text, some "f", true, 1, 1⟩] "f" =
      some (2, 2) ∧
    collect_map (fun n => n) false
        [⟨SymKind.text, some "f", true, 1, 1⟩, ⟨SymKind.text, some "f", true, 2, 1⟩] "f" ≠
      collect_map (fun n => n) false
        [⟨SymKind.text, some "f", true, 2, 1⟩, ⟨SymKind.text, some "f", true, 1, 1⟩] "f" := by
  refine ⟨List.Perm.swap _ _ _, by decide, by decide, by decide⟩

/-- C6 amended: aggregating a multiset of symbols in any permutation of
encounter order yields, for each name, the same presence and the same
total size; the stored address, being the first-seen address, is the one
part that can depend on the order (when duplicate names carry different
addresses). -/
theorem collect_map_perm_sizes (dem : String → String) (fo : Bool)
    (syms₁ syms₂ : List SymEntry) (h : syms₁.Perm syms₂) (k : String) :
    (collect_map dem fo syms₁ k).map Prod.snd = (collect_map dem fo syms₂ k).map Prod.snd ∧
    (collect_map dem fo syms₁ k).isSome = (collect_map dem fo syms₂ k).isSome := by
  rw [collect_map_eq, collect_map_eq]
  have hperm : (keyHits dem fo syms₁ k).Perm (keyHits dem fo syms₂ k) :=
    h.filter (fun s => decide (symKeyName dem fo s = some k))
  have hlen := hperm.length_eq
  match h1 : keyHits dem fo syms₁ k, h2 : keyHits dem fo syms₂ k with
  | [], [] => exact ⟨rfl, rfl⟩
  | [], h0 :: t => rw [h1, h2] at hlen; simp at hlen
  | h0 :: t, [] => rw [h1, h2] at hlen; simp at hlen
  | a1 :: t1, a2 :: t2 =>
    rw [h1, h2] at hperm
    have hsum : sumSizes (a1 :: t1) = sumSizes (a2 :: t2) := by
      unfold sumSizes
      exact (hperm.map (fun s => s.size)).sum_eq
    simp [foldedEntry, hsum]

/-- C6 amended, witness: the two orders of the counterexample lists give
the same total size (2) and the same presence for `"f"`. -/
theorem collect_map_perm_sizes_witness :
    (collect_map (fun n => n) false
        [⟨SymKind.text, some "f", true, 1, 1⟩, ⟨SymKind.text, some "f", true, 2, 1⟩] "f").map
        Prod.snd =
      (collect_map (fun n => n) false
        [⟨SymKind.text, some "f", true, 2, 1⟩, ⟨SymKind.text, some "f", true, 1, 1⟩] "f").map
        Prod.snd ∧
    (collect_map (fun n => n) false
        [⟨SymKind.text, some "f", true, 1, 1⟩, ⟨SymKind.text, some "f", true, 2, 1⟩]
        "f").isSome =
      (collect_map (fun n => n) false
        [⟨SymKind.text, some "f", true, 2, 1⟩, ⟨SymKind.text, some "f", true, 1, 1⟩]
        "f").isSome :=
  collect_map_perm_sizes (fun n => n) false _ _ (List.Perm.swap _ _ _) "f"

/-! ## The diff engine: record membership characterization -/

theorem differForEach_mem (oldMap newMap : AggMap) (tw : Bool)
    (holdK : (oldMap.map Prod.fst).Nodup) (hnewK : (newMap.map Prod.fst).Nodup)
    (r : DiffRec) :
    r ∈ differForEach oldMap newMap tw ↔
      ((∃ n a s na ns, assocLookup oldMap n = some (a, s) ∧
          assocLookup newMap n = some (na, ns) ∧ s ≠ ns ∧
          r = ⟨n, a, asI64 s, na, asI64 ns⟩) ∨
       (∃ n a s, assocLookup oldMap n = some (a, s) ∧
          assocLookup newMap n = none ∧ r = ⟨n, a, asI64 s, 0, 0⟩) ∨
       (tw = true ∧ ∃ n na ns, assocLookup oldMap n = none ∧
          assocLookup newMap n = some (na, ns) ∧ r = ⟨n, 0, 0, na, asI64 ns⟩)) := by
  unfold differForEach
  rw [List.mem_append, List.mem_filterMap]
  constructor
  · rintro (⟨⟨n, a, s⟩, he, hf⟩ | hsec)
    · dsimp only at hf
      have holdn : assocLookup oldMap n = some (a, s) :=
        (assocLookup_eq_some_iff oldMap holdK n (a, s)).mpr he
      cases hnew : assocLookup newMap n with
      | some nv =>
        obtain ⟨na, ns⟩ := nv
        simp only [hnew] at hf
        by_cases hne : s ≠ ns
        · rw [if_pos hne] at hf
          exact Or.inl ⟨n, a, s, na, ns, holdn, hnew, hne, (Option.some.inj hf).symm⟩
        · rw [if_neg hne] at hf
          simp at hf
      | none =>
        simp only [hnew] at hf
        exact Or.inr (Or.inl ⟨n, a, s, holdn, hnew, (Option.some.inj hf).symm⟩)
    · cases tw with
      | false => simp at hsec
      | true =>
        rw [if_pos rfl, List.mem_filterMap] at hsec
        obtain ⟨⟨n, na, ns⟩, he, hg⟩ := hsec
        dsimp only at hg
        cases hold2 : assocLookup oldMap n with
        | some v =>
          simp only [hold2] at hg
          exact Option.noConfusion hg
        | none =>
          simp only [hold2] at hg
          exact Or.inr (Or.inr ⟨rfl, n, na, ns, hold2,
            (assocLookup_eq_some_iff newMap hnewK n (na, ns)).mpr he,
            (Option.some.inj hg).symm⟩)
  · rintro (⟨n, a, s, na, ns, holdn, hnewn, hne, rfl⟩ | ⟨n, a, s, holdn, hnewn, rfl⟩ |
      ⟨htw, n, na, ns, holdn, hnewn, rfl⟩)
    · left
      refine ⟨(n, a, s), (assocLookup_eq_some_iff oldMap holdK n (a, s)).mp holdn, ?_⟩
      dsimp only
      simp only [hnewn]
      rw [if_pos hne]
    · left
      refine ⟨(n, a, s), (assocLookup_eq_some_iff oldMap holdK n (a, s)).mp holdn, ?_⟩
      dsimp only
      simp only [hnewn]
    · right
      subst htw
      rw [if_pos rfl, List.mem_filterMap]
      refine ⟨(n, na, ns), (assocLookup_eq_some_iff newMap hnewK n (na, ns)).mp hnewn, ?_⟩
      dsimp only
      simp only [holdn]

/-! ## Claim C5: the records the diff engine emits -/

/-- C5: with well-formed maps (distinct keys, as hash maps guarantee), a
record is emitted exactly when: its name is in `old` and in `new` with a
different size (both sizes reported); or its name is in `old` and absent
from `new` (new side zeroed); or — in two-way mode only — its name is
absent from `old` and present in `new` (old side zeroed). -/
theorem differForEach_spec (oldMap newMap : AggMap) (tw : Bool)
    (holdK : (oldMap.map Prod.fst).Nodup) (hnewK : (newMap.map Prod.fst).Nodup)
    (r : DiffRec) :
    r ∈ differForEach oldMap newMap tw ↔
      ((∃ n a s na ns, assocLookup oldMap n = some (a, s) ∧
          assocLookup newMap n = some (na, ns) ∧ s ≠ ns ∧
          r = ⟨n, a, asI64 s, na, asI64 ns⟩) ∨
       (∃ n a s, assocLookup oldMap n = some (a, s) ∧
          assocLookup newMap n = none ∧ r = ⟨n, a, asI64 s, 0, 0⟩) ∨
       (tw = true ∧ ∃ n na ns, assocLookup oldMap n = none ∧
          assocLookup newMap n = some (na, ns) ∧ r = ⟨n, 0, 0, na, asI64 ns⟩)) :=
  differForEach_mem oldMap newMap tw holdK hnewK r

/-- C5 witness: concrete two-way diff of `{f ↦ (1,5), g ↦ (3,4)}` against
`{f ↦ (1,6), h ↦ (7,2)}`: the size-changed record for `f` is emitted. -/
theorem differForEach_spec_witness :
    (⟨"f", 1, asI64 5, 1, asI64 6⟩ : DiffRec) ∈
      differForEach [("f", 1, 5), ("g", 3, 4)] [("f", 1, 6), ("h", 7, 2)] true ↔
      ((∃ n a s na ns, assocLookup [("f", 1, 5), ("g", 3, 4)] n = some (a, s) ∧
          assocLookup [("f", 1, 6), ("h", 7, 2)] n = some (na, ns) ∧ s ≠ ns ∧
          (⟨"f", 1, asI64 5, 1, asI64 6⟩ : DiffRec) = ⟨n, a, asI64 s, na, asI64 ns⟩) ∨
       (∃ n a s, assocLookup [("f", 1, 5), ("g", 3, 4)] n = some (a, s) ∧
          assocLookup [("f", 1, 6), ("h", 7, 2)] n = none ∧
          (⟨"f", 1, asI64 5, 1, asI64 6⟩ : DiffRec) = ⟨n, a, asI64 s, 0, 0⟩) ∨
       (true = true ∧ ∃ n na ns, assocLookup [("f", 1, 5), ("g", 3, 4)] n = none ∧
          assocLookup [("f", 1, 6), ("h", 7, 2)] n = some (na, ns) ∧
          (⟨"f", 1, asI64 5, 1, asI64 6⟩ : DiffRec) = ⟨n, 0, 0, na, asI64 ns⟩)) :=
  differForEach_spec [("f", 1, 5), ("g", 3, 4)] [("f", 1, 6), ("h", 7, 2)] true
    (by decide) (by decide) ⟨"f", 1, asI64 5, 1, asI64 6⟩

/-! ## Claim C10: equal sizes make a symbol invisible to the diff -/

/-- C10: when a name is present in both maps with equal sizes — even at
different addresses — no record is emitted for it (in either mode), and
therefore the accumulated delta total receives no contribution from it:
the total equals the sum over the records not bearing that name. -/
theorem differ_unchanged_invisible (oldMap newMap : AggMap) (tw : Bool)
    (holdK : (oldMap.map Prod.fst).Nodup) (hnewK : (newMap.map Prod.fst).Nodup)
    (n : String) (a a' s : Nat)
    (h1 : assocLookup oldMap n = some (a, s)) (h2 : assocLookup newMap n = some (a', s)) :
    (∀ r ∈ differForEach oldMap newMap tw, r.name ≠ n) ∧
    differTotal oldMap newMap tw =
      (((differForEach oldMap newMap tw).filter (fun r => decide (r.name ≠ n))).map
        (fun r => r.newSize - r.oldSize)).sum := by
  have hno : ∀ r ∈ differForEach oldMap newMap tw, r.name ≠ n := by
    intro r hr hrn
    rcases (differForEach_mem oldMap newMap tw holdK hnewK r).mp hr with
      ⟨n', a0, s0, na, ns, ho, hn, hne, rfl⟩ | ⟨n', a0, s0, ho, hn, rfl⟩ |
      ⟨-, n', na, ns, ho, hn, rfl⟩
    · dsimp only at hrn
      subst hrn
      have hs : s = s0 := congrArg Prod.snd (Option.some.inj (h1.symm.trans ho))
      have hns : s = ns := congrArg Prod.snd (Option.some.inj (h2.symm.trans hn))
      exact hne (hs.symm.trans hns)
    · dsimp only at hrn
      subst hrn
      rw [h2] at hn
      exact Option.noConfusion hn
    · dsimp only at hrn
      subst hrn
      rw [h1] at ho
      exact Option.noConfusion ho
  refine ⟨hno, ?_⟩
  unfold differTotal
  have hfilt : (differForEach oldMap newMap tw).filter (fun r => decide (r.name ≠ n)) =
      differForEach oldMap newMap tw := by
    rw [List.filter_eq_self]
    intro r hr
    simpa using hno r hr
  rw [hfilt]

/-- C10 witness: `f` has equal size 5 in both maps but moved from
address 1 to address 2; no record names `f`, and the total is untouched
by it. -/
theorem differ_unchanged_invisible_witness :
    (∀ r ∈ differForEach [("f", 1, 5), ("g", 10, 3)] [("f", 2, 5)] true, r.name ≠ "f") ∧
    differTotal [("f", 1, 5), ("g", 10, 3)] [("f", 2, 5)] true =
      (((differForEach [("f", 1, 5), ("g", 10, 3)] [("f", 2, 5)] true).filter
          (fun r => decide (r.name ≠ "f"))).map
        (fun r => r.newSize - r.oldSize)).sum :=
  differ_unchanged_invisible [("f", 1, 5), ("g", 10, 3)] [("f", 2, 5)] true
    (by decide) (by decide) "f" 1 2 5 (by decide) (by decide)

/-! ## Binary search correctness on strictly sorted address tables -/

theorem binarySearchByGo_finds (xs : List Nat) (key : Nat)
    (hsorted : List.Pairwise (· < ·) xs) (j : Nat) (hjlen : j < xs.length)
    (hkey : xs[j] = key) :
    ∀ fuel left right, left ≤ j → j < right → right ≤ xs.length → right - left ≤ fuel →
      binarySearchByGo (fun v => compare v key) xs left right fuel = .ok j := by
  have hmono : ∀ i j, (hi : i < xs.length) → (hj : j < xs.length) → i < j → xs[i] < xs[j] :=
    fun i j hi hj hij => List.pairwise_iff_getElem.mp hsorted i j hi hj hij
  intro fuel
  induction fuel with
  | zero =>
    intro left right h1 h2 h3 h4
    omega
  | succ fuel ih =>
    intro left right h1 h2 h3 h4
    have hlr : left < right := Nat.lt_of_le_of_lt h1 h2
    have hmidlt : left + (right - left) / 2 < right := by omega
    have hmidlen : left + (right - left) / 2 < xs.length := Nat.lt_of_lt_of_le hmidlt h3
    rw [binarySearchByGo, if_pos hlr]
    simp only [List.getElem?_eq_getElem hmidlen]
    cases hc : compare xs[left + (right - left) / 2] key with
    | lt =>
      have hvlt : xs[left + (right - left) / 2] < key := Nat.compare_eq_lt.mp hc
      have hjgt : left + (right - left) / 2 < j := by
        by_contra hcon
        push_neg at hcon
        rcases Nat.lt_or_ge j (left + (right - left) / 2) with hlt | hge
        · exact absurd (hkey ▸ hmono j (left + (right - left) / 2) hjlen hmidlen hlt)
            (by omega)
        · have : j = left + (right - left) / 2 := by omega
          subst this
          rw [hkey] at hvlt
          omega
      exact ih (left + (right - left) / 2 + 1) right hjgt h2 h3 (by omega)
    | gt =>
      have hvgt : key < xs[left + (right - left) / 2] := Nat.compare_eq_gt.mp hc
      have hjlt : j < left + (right - left) / 2 := by
        by_contra hcon
        push_neg at hcon
        rcases Nat.lt_or_ge (left + (right - left) / 2) j with hlt | hge
        · exact absurd (hkey ▸ hmono (left + (right - left) / 2) j hmidlen hjlen hlt)
            (by omega)
        · have : j = left + (right - left) / 2 := by omega
          subst this
          rw [hkey] at hvgt
          omega
      exact ih left (left + (right - left) / 2) h1 hjlt (Nat.le_of_lt hmidlen) (by omega)
    | eq =>
      have hveq : xs[left + (right - left) / 2] = key := Nat.compare_eq_eq.mp hc
      have : left + (right - left) / 2 = j := by
        by_contra hcon
        rcases Nat.lt_or_ge (left + (right - left) / 2) j with hlt | hge
        · have := hmono (left + (right - left) / 2) j hmidlen hjlen hlt
          rw [hveq, hkey] at this
          omega
        · have hlt : j < left + (right - left) / 2 := by omega
          have := hmono j (left + (right - left) / 2) hjlen hmidlen hlt
          rw [hveq, hkey] at this
          omega
      rw [this]

/-! ## Claim C1: Mach-O size inference -/

/-- C1 counterexample: table `[0, 50, 150]`, section `[0, 100)`, symbol
at 50.  The symbol is the last one of its section (150 lies outside the
section), so the claim prescribes `section_end - address = 50`; the code
instead sees a following table entry (in another section) and returns
`150 - 50 = 100`. -/
theorem machoInferSize_not_section_last :
    List.Pairwise (· < ·) [0, 50, 150] ∧ 50 ∈ [0, 50, 150] ∧ (0 ≤ 50 ∧ 50 < 0 + 100) ∧
    machoInferSize [0, 50, 150] 0 100 50 = some 100 ∧
    specClaimedMachoSize [0, 50, 150] 0 100 50 = some 50 ∧
    machoInferSize [0, 50, 150] 0 100 50 ≠ specClaimedMachoSize [0, 50, 150] 0 100 50 := by
  refine ⟨by decide, by decide, by decide, by decide, by decide, by decide⟩

/-- C1 amended: for a Mach-O occurrence whose address sits at index `j`
of the object's strictly sorted symbol-address table, the inferred size
is `next_table_address - this_address` when a next table entry exists
(whatever section it belongs to), and `section_end - this_address` only
when the symbol is the last entry of the whole table; the result is
a natural number, hence always ≥ 0. -/
theorem machoInferSize_spec (symmapAddrs : List Nat) (secAddr secSize symAddr j : Nat)
    (hsorted : List.Pairwise (· < ·) symmapAddrs)
    (hj : symmapAddrs[j]? = some symAddr) :
    ∃ s, machoInferSize symmapAddrs secAddr secSize symAddr = some s ∧ 0 ≤ s ∧
      ((∃ next, symmapAddrs[j + 1]? = some next ∧ s = next - symAddr ∧ symAddr ≤ next) ∨
       (symmapAddrs[j + 1]? = none ∧ s = secAddr + secSize - symAddr)) := by
  have hjlen : j < symmapAddrs.length := by
    by_contra hcon
    rw [List.getElem?_eq_none (Nat.le_of_not_lt hcon)] at hj
    exact Option.noConfusion hj
  have hkey : symmapAddrs[j] = symAddr := by
    rw [List.getElem?_eq_getElem hjlen] at hj
    exact Option.some.inj hj
  have hbs : binarySearchByKey symAddr (fun a => a) symmapAddrs = .ok j := by
    unfold binarySearchByKey binarySearchBy
    exact binarySearchByGo_finds symmapAddrs symAddr hsorted j hjlen hkey
      (symmapAddrs.length + 1) 0 symmapAddrs.length (Nat.zero_le j) hjlen
      (Nat.le_refl _) (by omega)
  unfold machoInferSize
  rw [hbs]
  cases hnext : symmapAddrs[j + 1]? with
  | some next =>
    have hlen1 : j + 1 < symmapAddrs.length := by
      by_contra hcon
      rw [List.getElem?_eq_none (Nat.le_of_not_lt hcon)] at hnext
      exact Option.noConfusion hnext
    have hnexteq : symmapAddrs[j + 1] = next := by
      rw [List.getElem?_eq_getElem hlen1] at hnext
      exact Option.some.inj hnext
    have hlt : symAddr < next := by
      have := List.pairwise_iff_getElem.mp hsorted j (j + 1) hjlen hlen1 (Nat.lt_succ_self j)
      rw [hkey, hnexteq] at this
      exact this
    exact ⟨next - symAddr, by simp only [hnext], Nat.zero_le _,
      Or.inl ⟨next, rfl, rfl, Nat.le_of_lt hlt⟩⟩
  | none =>
    exact ⟨secAddr + secSize - symAddr, by simp only [hnext], Nat.zero_le _,
      Or.inr ⟨rfl, rfl⟩⟩

/-- C1 amended, witness: table `[0, 50]`, section `[0, 100)`, symbol at
50 (index 1): the last table entry gets `section_end - address = 50`. -/
theorem machoInferSize_spec_witness :
    ∃ s, machoInferSize [0, 50] 0 100 50 = some s ∧ 0 ≤ s ∧
      ((∃ next, ([0, 50] : List Nat)[1 + 1]? = some next ∧ s = next - 50 ∧ 50 ≤ next) ∨
       (([0, 50] : List Nat)[1 + 1]? = none ∧ s = 0 + 100 - 50)) :=
  machoInferSize_spec [0, 50] 0 100 50 1 (by decide) (by decide)

/-! ## The relocation index: sorting, partition point, range slicing -/

theorem insertByOffset_perm (p : Nat × RelocEntry) (l : List (Nat × RelocEntry)) :
    (insertByOffset p l).Perm (p :: l) := by
  induction l with
  | nil => exact List.Perm.refl _
  | cons q rest ih =>
    by_cases hpq : p.1 ≤ q.1
    · rw [show insertByOffset p (q :: rest) = p :: q :: rest from by
        simp [insertByOffset, hpq]]
    · rw [show insertByOffset p (q :: rest) = q :: insertByOffset p rest from by
        simp [insertByOffset, hpq]]
      exact (ih.cons q).trans (List.Perm.swap p q rest)

theorem init_reloc_perm (l : List (Nat × RelocEntry)) : (init_reloc l).Perm l := by
  induction l with
  | nil => exact List.Perm.refl _
  | cons p rest ih =>
    exact (insertByOffset_perm p (init_reloc rest)).trans (ih.cons p)

theorem insertByOffset_sorted (p : Nat × RelocEntry) (l : List (Nat × RelocEntry))
    (h : List.Pairwise (fun a c => a.1 ≤ c.1) l) :
    List.Pairwise (fun a c => a.1 ≤ c.1) (insertByOffset p l) := by
  induction l with
  | nil => simp [insertByOffset]
  | cons q rest ih =>
    rw [List.pairwise_cons] at h
    obtain ⟨hq, hrest⟩ := h
    by_cases hpq : p.1 ≤ q.1
    · rw [show insertByOffset p (q :: rest) = p :: q :: rest from by
        simp [insertByOffset, hpq]]
      rw [List.pairwise_cons]
      refine ⟨?_, List.pairwise_cons.mpr ⟨hq, hrest⟩⟩
      intro y hy
      rcases List.mem_cons.mp hy with rfl | hy
      · exact hpq
      · exact Nat.le_trans hpq (hq y hy)
    · rw [show insertByOffset p (q :: rest) = q :: insertByOffset p rest from by
        simp [insertByOffset, hpq]]
      rw [List.pairwise_cons]
      refine ⟨?_, ih hrest⟩
      intro y hy
      rcases List.mem_cons.mp ((insertByOffset_perm p rest).mem_iff.mp hy) with rfl | hy
      · omega
      · exact hq y hy

theorem init_reloc_sorted (l : List (Nat × RelocEntry)) :
    List.Pairwise (fun a c => a.1 ≤ c.1) (init_reloc l) := by
  induction l with
  | nil => simp [init_reloc]
  | cons p rest ih => exact insertByOffset_sorted p (init_reloc rest) ih

theorem binarySearchByGo_partition {α : Type} (pred : α → Bool) (xs : List α) (t : Nat)
    (hA : ∀ i, (hi : i < xs.length) → i < t → pred xs[i] = true)
    (hB : ∀ i, (hi : i < xs.length) → t ≤ i → pred xs[i] = false) :
    ∀ fuel left right, left ≤ t → t ≤ right → right ≤ xs.length → right - left ≤ fuel →
      binarySearchByGo (fun v => if pred v then Ordering.lt else Ordering.gt) xs left right fuel
        = .error t := by
  intro fuel
  induction fuel with
  | zero =>
    intro left right h1 h2 h3 h4
    rw [binarySearchByGo]
    exact congrArg Except.error (by omega)
  | succ fuel ih =>
    intro left right h1 h2 h3 h4
    by_cases hlr : left < right
    · rw [binarySearchByGo, if_pos hlr]
      have hmidlt : left + (right - left) / 2 < right := by omega
      have hmidlen : left + (right - left) / 2 < xs.length := Nat.lt_of_lt_of_le hmidlt h3
      simp only [List.getElem?_eq_getElem hmidlen]
      by_cases hm : left + (right - left) / 2 < t
      · simp only [hA _ hmidlen hm, if_true]
        exact ih (left + (right - left) / 2 + 1) right (by omega) h2 h3 (by omega)
      · simp only [hB _ hmidlen (by omega), if_false]
        exact ih left (left + (right - left) / 2) h1 (by omega)
          (Nat.le_of_lt hmidlen) (by omega)
    · rw [binarySearchByGo, if_neg hlr]
      exact congrArg Except.error (by omega)

theorem sorted_takeWhile_lt_facts (b : Nat) (xs : List (Nat × RelocEntry))
    (hs : List.Pairwise (fun a c => a.1 ≤ c.1) xs) :
    (∀ i, (hi : i < xs.length) →
       i < (xs.takeWhile (fun p => decide (p.1 < b))).length → xs[i].1 < b) ∧
    (∀ i, (hi : i < xs.length) →
       (xs.takeWhile (fun p => decide (p.1 < b))).length ≤ i → ¬ xs[i].1 < b) := by
  induction xs with
  | nil =>
    exact ⟨fun i hi => absurd hi (by simp), fun i hi => absurd hi (by simp)⟩
  | cons x rest ih =>
    rw [List.pairwise_cons] at hs
    obtain ⟨hx, hrest⟩ := hs
    obtain ⟨ihA, ihB⟩ := ih hrest
    by_cases hxb : x.1 < b
    · have htw : (x :: rest).takeWhile (fun p => decide (p.1 < b)) =
          x :: rest.takeWhile (fun p => decide (p.1 < b)) := by
        simp [List.takeWhile_cons, hxb]
      rw [htw]
      constructor
      · intro i hi hlt
        match i with
        | 0 => simpa using hxb
        | i' + 1 =>
          simp only [List.getElem_cons_succ]
          exact ihA i' (by simpa using hi) (by simpa using hlt)
      · intro i hi hge
        match i with
        | 0 => simp at hge
        | i' + 1 =>
          simp only [List.getElem_cons_succ]
          exact ihB i' (by simpa using hi) (by simpa using hge)
    · have htw : (x :: rest).takeWhile (fun p => decide (p.1 < b)) = [] := by
        simp [List.takeWhile_cons, hxb]
      rw [htw]
      refine ⟨fun i hi hlt => absurd hlt (by simp), fun i hi _ => ?_⟩
      match i with
      | 0 => simpa using hxb
      | i' + 1 =>
        have hi' : i' < rest.length := by simpa using hi
        simp only [List.getElem_cons_succ]
        have hmem : rest[i'] ∈ rest := List.getElem_mem hi'
        have := hx _ hmem
        omega

theorem partitionPoint_sorted_lt (b : Nat) (xs : List (Nat × RelocEntry))
    (hs : List.Pairwise (fun a c => a.1 ≤ c.1) xs) :
    partitionPoint (fun p => decide (p.1 < b)) xs =
      (xs.takeWhile (fun p => decide (p.1 < b))).length := by
  obtain ⟨hA, hB⟩ := sorted_takeWhile_lt_facts b xs hs
  have htlen : (xs.takeWhile (fun p => decide (p.1 < b))).length ≤ xs.length := by
    have hpre : xs.takeWhile (fun p => decide (p.1 < b)) <+: xs := List.takeWhile_prefix _
    exact hpre.length_le
  unfold partitionPoint binarySearchBy
  rw [binarySearchByGo_partition (fun p => decide (p.1 < b)) xs
    ((xs.takeWhile (fun p => decide (p.1 < b))).length)
    (fun i hi hit => by simpa using hA i hi hit)
    (fun i hi hit => by simpa using hB i hi hit)
    (xs.length + 1) 0 xs.length (Nat.zero_le _) htlen (Nat.le_refl _) (by omega)]

theorem takeWhile_length_le_of_imp {α : Type} (p q : α → Bool)
    (himp : ∀ a, p a = true → q a = true) (xs : List α) :
    (xs.takeWhile p).length ≤ (xs.takeWhile q).length := by
  induction xs with
  | nil => simp
  | cons x rest ih =>
    by_cases hp : p x = true
    · simp only [List.takeWhile_cons, hp, himp x hp, eq_self_iff_true, if_true,
        List.length_cons]
      omega
    · simp only [List.takeWhile_cons]
      rw [show p x = false from Bool.eq_false_iff.mpr hp]
      simp

theorem takeWhile_eq_nil_of_all_false {α : Type} (p : α → Bool) (l : List α)
    (h : ∀ y ∈ l, p y = false) : l.takeWhile p = [] := by
  cases l with
  | nil => rfl
  | cons x rest => simp [List.takeWhile_cons, h x (List.mem_cons_self x rest)]

theorem sorted_slice_eq_filter (lo hi : Nat) (hlohi : lo ≤ hi)
    (xs : List (Nat × RelocEntry)) (hs : List.Pairwise (fun a c => a.1 ≤ c.1) xs) :
    ((xs.take ((xs.takeWhile (fun p => decide (p.1 < hi))).length)).drop
        ((xs.takeWhile (fun p => decide (p.1 < lo))).length)) =
      xs.filter (fun p => decide (lo ≤ p.1 ∧ p.1 < hi)) := by
  induction xs with
  | nil => rfl
  | cons x rest ih =>
    rw [List.pairwise_cons] at hs
    obtain ⟨hx, hrest⟩ := hs
    by_cases hxlo : x.1 < lo
    · have hxhi : x.1 < hi := Nat.lt_of_lt_of_le hxlo hlohi
      have htlo : (x :: rest).takeWhile (fun p => decide (p.1 < lo)) =
          x :: rest.takeWhile (fun p => decide (p.1 < lo)) := by
        simp [List.takeWhile_cons, hxlo]
      have hthi : (x :: rest).takeWhile (fun p => decide (p.1 < hi)) =
          x :: rest.takeWhile (fun p => decide (p.1 < hi)) := by
        simp [List.takeWhile_cons, hxhi]
      rw [htlo, hthi]
      simp only [List.length_cons, List.take_succ_cons, List.drop_succ_cons]
      rw [ih hrest]
      rw [List.filter_cons_of_neg (by simp; omega)]
    · by_cases hxhi : x.1 < hi
      · have htlo : (x :: rest).takeWhile (fun p => decide (p.1 < lo)) = [] := by
          simp [List.takeWhile_cons, hxlo]
        have hthi : (x :: rest).takeWhile (fun p => decide (p.1 < hi)) =
            x :: rest.takeWhile (fun p => decide (p.1 < hi)) := by
          simp [List.takeWhile_cons, hxhi]
        have hrestlo : rest.takeWhile (fun p => decide (p.1 < lo)) = [] := by
          apply takeWhile_eq_nil_of_all_false
          intro y hy
          have := hx y hy
          simp only [decide_eq_false_iff_not]
          omega
        rw [htlo, hthi]
        simp only [List.length_cons, List.length_nil, List.take_succ_cons, List.drop_zero]
        have ih' := ih hrest
        rw [hrestlo] at ih'
        simp only [List.length_nil, List.drop_zero] at ih'
        rw [ih']
        rw [List.filter_cons_of_pos (by simp; omega)]
      · have htlo : (x :: rest).takeWhile (fun p => decide (p.1 < lo)) = [] := by
          simp [List.takeWhile_cons, hxlo]
        have hthi : (x :: rest).takeWhile (fun p => decide (p.1 < hi)) = [] := by
          simp [List.takeWhile_cons, hxhi]
        rw [htlo, hthi]
        simp only [List.length_nil, List.take_zero, List.drop_zero]
        rw [List.filter_cons_of_neg (by simp; omega)]
        rw [eq_comm, List.filter_eq_nil_iff]
        intro y hy
        have := hx y hy
        simp only [decide_eq_true_eq, not_and]
        omega

theorem convertRelocs_ok (l : List (Nat × RelocEntry))
    (h : ∀ p ∈ l, isSupported p.2.target = true) :
    convertRelocs l = .ok (l.map toRelocation) := by
  induction l with
  | nil => rfl
  | cons p rest ih =>
    obtain ⟨off, r⟩ := p
    have hhead := h (off, r) (List.mem_cons_self _ _)
    have htail := ih (fun q hq => h q (List.mem_cons_of_mem _ hq))
    cases hrt : r.target with
    | symbol i =>
      simp [convertRelocs, hrt, htail, toRelocation, Except.map]
    | sectionRef i =>
      simp [convertRelocs, hrt, htail, toRelocation, Except.map]
    | other raw =>
      rw [hrt] at hhead
      simp [isSupported] at hhead

theorem relocQuery_eq (sectionRelocs : List (Nat × RelocEntry))
    (secAddr symAddr symSize : Nat) :
    relocQuery sectionRelocs secAddr symAddr symSize =
      convertRelocs
        (if partitionPoint (fun p => decide (p.1 < symAddr - secAddr))
              (init_reloc sectionRelocs) ≤
            partitionPoint (fun p => decide (p.1 < (symAddr - secAddr) + symSize))
              (init_reloc sectionRelocs) ∧
            partitionPoint (fun p => decide (p.1 < (symAddr - secAddr) + symSize))
              (init_reloc sectionRelocs) ≤ (init_reloc sectionRelocs).length then
          ((init_reloc sectionRelocs).take
              (partitionPoint (fun p => decide (p.1 < (symAddr - secAddr) + symSize))
                (init_reloc sectionRelocs))).drop
            (partitionPoint (fun p => decide (p.1 < symAddr - secAddr))
              (init_reloc sectionRelocs))
        else []) := rfl

/-! ## Claim C2: the relocation range query matches a linear scan -/

/-- C2: as long as the section's relocations all have supported targets
(an unsupported target is a hard error), the two-binary-search range
query over the offset-sorted table returns exactly the relocations of
the section whose offset lies in `[symbol_offset, symbol_offset + size)`
— the same multiset (a permutation) as the linear-scan reference over
the unsorted relocation list. -/
theorem relocQuery_spec (sectionRelocs : List (Nat × RelocEntry))
    (secAddr symAddr symSize : Nat)
    (hsupp : ∀ p ∈ sectionRelocs, isSupported p.2.target = true) :
    ∃ l, relocQuery sectionRelocs secAddr symAddr symSize = .ok l ∧
      l.Perm ((linearScanRelocs sectionRelocs (symAddr - secAddr)
        ((symAddr - secAddr) + symSize)).map toRelocation) := by
  have hsorted := init_reloc_sorted sectionRelocs
  have hperm := init_reloc_perm sectionRelocs
  have hstart := partitionPoint_sorted_lt (symAddr - secAddr) (init_reloc sectionRelocs) hsorted
  have hstop :=
    partitionPoint_sorted_lt ((symAddr - secAddr) + symSize) (init_reloc sectionRelocs) hsorted
  have hmono : partitionPoint (fun p => decide (p.1 < symAddr - secAddr))
      (init_reloc sectionRelocs) ≤
      partitionPoint (fun p => decide (p.1 < (symAddr - secAddr) + symSize))
        (init_reloc sectionRelocs) := by
    rw [hstart, hstop]
    exact takeWhile_length_le_of_imp _ _
      (fun a ha => by simp at ha ⊢; omega) (init_reloc sectionRelocs)
  have hlen : partitionPoint (fun p => decide (p.1 < (symAddr - secAddr) + symSize))
      (init_reloc sectionRelocs) ≤ (init_reloc sectionRelocs).length := by
    rw [hstop]
    have hpre : (init_reloc sectionRelocs).takeWhile
        (fun p => decide (p.1 < (symAddr - secAddr) + symSize)) <+: init_reloc sectionRelocs :=
      List.takeWhile_prefix _
    exact hpre.length_le
  have hfilt : (init_reloc sectionRelocs).filter
        (fun p => decide ((symAddr - secAddr) ≤ p.1 ∧ p.1 < (symAddr - secAddr) + symSize)) =
      ((init_reloc sectionRelocs).take
          (partitionPoint (fun p => decide (p.1 < (symAddr - secAddr) + symSize))
            (init_reloc sectionRelocs))).drop
        (partitionPoint (fun p => decide (p.1 < symAddr - secAddr))
          (init_reloc sectionRelocs)) := by
    rw [hstart, hstop]
    exact (sorted_slice_eq_filter (symAddr - secAddr) ((symAddr - secAddr) + symSize)
      (Nat.le_add_right _ _) (init_reloc sectionRelocs) hsorted).symm
  have hsupp2 : ∀ p ∈ (init_reloc sectionRelocs).filter
        (fun p => decide ((symAddr - secAddr) ≤ p.1 ∧ p.1 < (symAddr - secAddr) + symSize)),
      isSupported p.2.target = true := by
    intro p hp
    exact hsupp p (hperm.mem_iff.mp (List.mem_of_mem_filter hp))
  rw [relocQuery_eq, if_pos ⟨hmono, hlen⟩, ← hfilt, convertRelocs_ok _ hsupp2]
  refine ⟨_, rfl, ?_⟩
  exact (hperm.filter _).map toRelocation

/-- C2 witness: an unsorted three-entry relocation table queried over the
range `[10, 30)` returns, up to permutation, the linear-scan selection. -/
theorem relocQuery_spec_witness :
    ∃ l, relocQuery
        [(35, ⟨RTarget.symbol 1, 4⟩), (10, ⟨RTarget.sectionRef 2, -8⟩),
          (20, ⟨RTarget.symbol 3, 0⟩)] 100 110 20 = .ok l ∧
      l.Perm ((linearScanRelocs
        [(35, ⟨RTarget.symbol 1, 4⟩), (10, ⟨RTarget.sectionRef 2, -8⟩),
          (20, ⟨RTarget.symbol 3, 0⟩)] (110 - 100) ((110 - 100) + 20)).map toRelocation) :=
  relocQuery_spec
    [(35, ⟨RTarget.symbol 1, 4⟩), (10, ⟨RTarget.sectionRef 2, -8⟩),
      (20, ⟨RTarget.symbol 3, 0⟩)] 100 110 20 (by decide)

/-! ## The section data cache: dump as a state machine -/

theorem dumpPure_eq (env : SectionEnv) (sym : Symbol) :
    dumpPure env sym =
      match env (sym.objIdx, sym.sectionIdx) with
      | none => .error "bad section index"
      | some sec => data_range sec.bytes sec.addr sym.address sym.size := by
  unfold dumpPure dump
  cases henv : env (sym.objIdx, sym.sectionIdx) with
  | none => simp [assocLookup, henv]
  | some sec => cases hcomp : sec.compressed <;> simp [assocLookup, henv, hcomp]

theorem dump_result_pure (env : SectionEnv) (cache : DecompCache) (sym : Symbol)
    (hc : cacheConsistent env cache) :
    (dump env cache sym).1 = dumpPure env sym := by
  rw [dumpPure_eq]
  unfold dump
  cases hcl : assocLookup cache (sym.objIdx, sym.sectionIdx) with
  | none =>
    simp only [hcl]
    cases henv : env (sym.objIdx, sym.sectionIdx) with
    | none => simp [henv]
    | some sec => cases hcomp : sec.compressed <;> simp [henv, hcomp]
  | some sd =>
    obtain ⟨sa, data⟩ := sd
    obtain ⟨sec, hsec, hsd⟩ := hc _ _ hcl
    have h1 : sa = sec.addr := congrArg Prod.fst hsd
    have h2 : data = sec.bytes := congrArg Prod.snd hsd
    simp only [hcl, hsec, h1, h2]

theorem dump_preserves_consistent (env : SectionEnv) (cache : DecompCache) (sym : Symbol)
    (hc : cacheConsistent env cache) :
    cacheConsistent env (dump env cache sym).2.1 := by
  unfold dump
  cases hcl : assocLookup cache (sym.objIdx, sym.sectionIdx) with
  | none =>
    simp only [hcl]
    cases henv : env (sym.objIdx, sym.sectionIdx) with
    | none => simpa using hc
    | some sec =>
      cases hcomp : sec.compressed with
      | false => simpa [hcomp] using hc
      | true =>
        simp only [hcomp, if_true]
        intro k sd hlk
        by_cases hk : (sym.objIdx, sym.sectionIdx) = k
        · rw [show assocLookup (((sym.objIdx, sym.sectionIdx), (sec.addr, sec.bytes)) ::
              cache) k = some (sec.addr, sec.bytes) from by simp [assocLookup, hk]] at hlk
          exact ⟨sec, hk ▸ henv, (Option.some.inj hlk).symm⟩
        · rw [show assocLookup (((sym.objIdx, sym.sectionIdx), (sec.addr, sec.bytes)) ::
              cache) k = assocLookup cache k from by simp [assocLookup, hk]] at hlk
          exact hc k sd hlk
  | some sd =>
    simp only [hcl]
    exact hc

theorem dump_count_hit (env : SectionEnv) (cache : DecompCache) (sym : Symbol)
    (h : assocLookup cache (sym.objIdx, sym.sectionIdx) ≠ none) :
    (dump env cache sym).2.2 = 0 := by
  unfold dump
  cases hcl : assocLookup cache (sym.objIdx, sym.sectionIdx) with
  | none => exact absurd hcl h
  | some sd => simp [hcl]

theorem dump_count_miss_needed (env : SectionEnv) (cache : DecompCache) (sym : Symbol)
    (h : (dump env cache sym).2.2 ≠ 0) :
    assocLookup cache (sym.objIdx, sym.sectionIdx) = none := by
  by_contra hcon
  exact h (dump_count_hit env cache sym hcon)

theorem dump_lookup_mono (env : SectionEnv) (cache : DecompCache) (sym : Symbol)
    (k : Nat × Nat) (h : assocLookup cache k ≠ none) :
    assocLookup (dump env cache sym).2.1 k ≠ none := by
  unfold dump
  cases hcl : assocLookup cache (sym.objIdx, sym.sectionIdx) with
  | none =>
    simp only [hcl]
    cases henv : env (sym.objIdx, sym.sectionIdx) with
    | none => simpa using h
    | some sec =>
      cases hcomp : sec.compressed with
      | false => simpa [hcomp] using h
      | true =>
        simp only [hcomp, if_true]
        by_cases hk : (sym.objIdx, sym.sectionIdx) = k
        · simp [assocLookup, hk]
        · simpa [assocLookup, hk] using h
  | some sd =>
    simp only [hcl]
    exact h

theorem dump_inserted (env : SectionEnv) (cache : DecompCache) (sym : Symbol)
    (h : (dump env cache sym).2.2 ≠ 0) :
    assocLookup (dump env cache sym).2.1 (sym.objIdx, sym.sectionIdx) ≠ none := by
  have hcl := dump_count_miss_needed env cache sym h
  unfold dump at h ⊢
  simp only [hcl] at h ⊢
  cases henv : env (sym.objIdx, sym.sectionIdx) with
  | none => simp [henv] at h
  | some sec =>
    cases hcomp : sec.compressed with
    | false => simp [henv, hcomp] at h
    | true => simp [henv, hcomp, assocLookup]

theorem dumpSeq_cons (env : SectionEnv) (cache : DecompCache) (s : Symbol)
    (rest : List Symbol) :
    dumpSeq env cache (s :: rest) =
      ((dump env cache s).1 :: (dumpSeq env (dump env cache s).2.1 rest).1,
        (dumpSeq env (dump env cache s).2.1 rest).2.1,
        (if (dump env cache s).2.2 = 0 then [] else [(s.objIdx, s.sectionIdx)]) ++
          (dumpSeq env (dump env cache s).2.1 rest).2.2) := rfl

theorem dumpSeq_invariant (env : SectionEnv) (syms : List Symbol) :
    ∀ cache, cacheConsistent env cache →
      (∀ (i : Nat) (s : Symbol), syms[i]? = some s →
        (dumpSeq env cache syms).1[i]? = some (dumpPure env s)) ∧
      (∀ key, assocLookup cache key ≠ none →
        ((dumpSeq env cache syms).2.2).count key = 0) ∧
      (∀ key, ((dumpSeq env cache syms).2.2).count key ≤ 1) := by
  induction syms with
  | nil =>
    intro cache _
    refine ⟨fun i s h => by simp at h, fun key _ => by simp [dumpSeq], fun key => by
      simp [dumpSeq]⟩
  | cons s rest ih =>
    intro cache hc
    have hres := dump_result_pure env cache s hc
    have hcons := dump_preserves_consistent env cache s hc
    obtain ⟨ih1, ih2, ih3⟩ := ih (dump env cache s).2.1 hcons
    refine ⟨?_, ?_, ?_⟩
    · intro i s' hi
      match i with
      | 0 =>
        have hs' : s' = s := by
          rw [List.getElem?_cons_zero] at hi
          exact (Option.some.inj hi).symm
        subst hs'
        rw [dumpSeq_cons]
        simp only [List.getElem?_cons_zero, hres]
      | i' + 1 =>
        rw [List.getElem?_cons_succ] at hi
        rw [dumpSeq_cons]
        simpa only [List.getElem?_cons_succ] using ih1 i' s' hi
    · intro key hk
      rw [dumpSeq_cons]
      simp only [List.count_append]
      have htail : ((dumpSeq env (dump env cache s).2.1 rest).2.2).count key = 0 :=
        ih2 key (dump_lookup_mono env cache s key hk)
      rw [htail]
      by_cases hn : (dump env cache s).2.2 = 0
      · simp [hn]
      · have hne : (s.objIdx, s.sectionIdx) ≠ key := by
          intro hkey
          exact hk (hkey ▸ dump_count_miss_needed env cache s hn)
        simp [hn, List.count_cons, hne]
    · intro key
      rw [dumpSeq_cons]
      simp only [List.count_append]
      by_cases hn : (dump env cache s).2.2 = 0
      · simpa [hn] using ih3 key
      · by_cases hkey : (s.objIdx, s.sectionIdx) = key
        · have htail : ((dumpSeq env (dump env cache s).2.1 rest).2.2).count key = 0 :=
            ih2 key (hkey ▸ dump_inserted env cache s hn)
          simp [hn, htail, List.count_cons, hkey]
        · have hhead : (if (dump env cache s).2.2 = 0 then ([] : List (Nat × Nat))
              else [(s.objIdx, s.sectionIdx)]).count key = 0 := by
            simp [hn, List.count_cons, hkey]
          rw [hhead]
          simpa using ih3 key

/-! ## Claim C3: decompress once, byte-identical replays -/

/-- C3: over any session (any sequence of `dump` requests threaded through
an initially empty cache), each `(object, section)` key sees at most one
decompression — a second request for a cached key takes the `Occupied`
branch and performs none — and every request's byte result equals the
pure per-symbol value `dumpPure env s`, so repeated requests for the same
resolved symbol return byte-identical content. -/
theorem dump_cache_once (env : SectionEnv) (syms : List Symbol) :
    (∀ key, ((dumpSeq env [] syms).2.2).count key ≤ 1) ∧
    (∀ (i : Nat) (s : Symbol), syms[i]? = some s →
      (dumpSeq env [] syms).1[i]? = some (dumpPure env s)) := by
  have h := dumpSeq_invariant env syms []
    (fun k sd hlk => by simp [assocLookup] at hlk)
  exact ⟨h.2.2, h.1⟩

/-- C3 witness: two dumps of different symbols from the same compressed
section `(0,0)`: the key is decompressed at most once and the first
request returns its pure value. -/
theorem dump_cache_once_witness :
    (((dumpSeq (fun k => if k = (0, 0) then some ⟨0, true, [1, 2, 3]⟩ else none) []
        [⟨0, 0, 0, 2⟩, ⟨0, 0, 1, 2⟩]).2.2).count (0, 0) ≤ 1) ∧
    ((dumpSeq (fun k => if k = (0, 0) then some ⟨0, true, [1, 2, 3]⟩ else none) []
        [⟨0, 0, 0, 2⟩, ⟨0, 0, 1, 2⟩]).1[0]? =
      some (dumpPure (fun k => if k = (0, 0) then some ⟨0, true, [1, 2, 3]⟩ else none)
        ⟨0, 0, 0, 2⟩)) :=
  ⟨(dump_cache_once (fun k => if k = (0, 0) then some ⟨0, true, [1, 2, 3]⟩ else none)
      [⟨0, 0, 0, 2⟩, ⟨0, 0, 1, 2⟩]).1 (0, 0),
   (dump_cache_once (fun k => if k = (0, 0) then some ⟨0, true, [1, 2, 3]⟩ else none)
      [⟨0, 0, 0, 2⟩, ⟨0, 0, 1, 2⟩]).2 0 ⟨0, 0, 0, 2⟩ rfl⟩

end SymTools
